import Mathlib

/-!
Verification development for an ABAP SELECT-star analyzer/remediator.

The source program (app.py, with a variant app_V2.py) locates statements of
the form SELECT [SINGLE] * FROM table ... .  via regular expressions, resolves
the receiving target (work area, internal table, or implicit), harvests the
component accesses name-field dereferenced anywhere in the corpus, detects
dynamic component access (ASSIGN COMPONENT ... OF STRUCTURE ...) as an
ambiguity signal, and synthesizes an explicit-field replacement statement.

This file gives a shallow embedding of that program over List Char.  Each
Python regular expression is translated into a deterministic matcher that
follows the regex engine behavior (leftmost match, greedy/lazy quantifier
resolution, word boundaries, case-insensitivity flags) for the concrete
patterns used by the source; the character classes for whitespace and word
characters are modelled over their ASCII portions.
-/

namespace SelectRule

/-- Python regex whitespace class (ASCII portion): space, tab, newline,
carriage return, form feed, vertical tab. -/
def isPySpace (c : Char) : Bool :=
  c = ' ' || c = '\t' || c = '\n' || c = '\x0d' || c = '\x0c' || c = '\x0b'

/-- Python regex word-character class (ASCII portion): letters, digits,
underscore. -/
def isWordChar (c : Char) : Bool :=
  ('a' ≤ c && c ≤ 'z') || ('A' ≤ c && c ≤ 'Z') || ('0' ≤ c && c ≤ '9') || c = '_'

/-- Pairs of upper-case ASCII letters and their lower-case forms. -/
def upperLowerTable : List (Char × Char) :=
  [('A','a'), ('B','b'), ('C','c'), ('D','d'), ('E','e'), ('F','f'), ('G','g'),
   ('H','h'), ('I','i'), ('J','j'), ('K','k'), ('L','l'), ('M','m'), ('N','n'),
   ('O','o'), ('P','p'), ('Q','q'), ('R','r'), ('S','s'), ('T','t'), ('U','u'),
   ('V','v'), ('W','w'), ('X','x'), ('Y','y'), ('Z','z')]

/-- ASCII lower-casing of one character (model of Python str.lower on the
characters the program manipulates). -/
def lowerChar (c : Char) : Char :=
  match upperLowerTable.find? (fun p => p.1 == c) with
  | some p => p.2
  | none => c

/-- Case-sensitive literal match of a pattern prefix; returns the rest of the
input on success.  Models a compiled re.escape(name) pattern without
re.IGNORECASE. -/
def matchLit : List Char → List Char → Option (List Char)
  | [], s => some s
  | _ :: _, [] => none
  | p :: ps, c :: cs => if c = p then matchLit ps cs else none

/-- Case-insensitive literal match of a pattern prefix; returns the rest of
the input on success.  Models a literal regex fragment compiled with
re.IGNORECASE. -/
def matchCI : List Char → List Char → Option (List Char)
  | [], s => some s
  | _ :: _, [] => none
  | p :: ps, c :: cs => if lowerChar c = lowerChar p then matchCI ps cs else none

/-- Drop a maximal run of whitespace characters (the greedy regex piece
backslash-s-star). -/
def dropSpaces : List Char → List Char
  | [] => []
  | c :: cs => if isPySpace c then dropSpaces cs else c :: cs

/-- Require at least one whitespace character and consume the maximal run
(the greedy regex piece backslash-s-plus).  In every pattern of the source
the token following such a run cannot begin with whitespace, so consuming
maximally loses no match. -/
def ws1 : List Char → Option (List Char)
  | [] => none
  | c :: cs => if isPySpace c then some (dropSpaces cs) else none

/-- Split off the maximal run of word characters (the greedy regex piece
backslash-w-star). -/
def takeWordAux : List Char → List Char × List Char
  | [] => ([], [])
  | c :: cs =>
      if isWordChar c then
        ((takeWordAux cs).1.cons c, (takeWordAux cs).2)
      else ([], c :: cs)

/-- The greedy regex piece backslash-w-plus: a non-empty maximal run of word
characters, returned with the rest of the input. -/
def takeWord (s : List Char) : Option (List Char × List Char) :=
  match takeWordAux s with
  | ([], _) => none
  | (w, r) => some (w, r)

/-- Everything up to the first literal dot, and the rest after that dot.
Models a lazy dot-star-question followed by an escaped dot under re.DOTALL:
the match ends at the first period at or after the current position. -/
def splitAtDot : List Char → Option (List Char × List Char)
  | [] => none
  | c :: cs =>
      if c = '.' then some ([], cs)
      else (splitAtDot cs).map (fun p => (p.1.cons c, p.2))

/-- Everything up to the first closing square bracket, and the rest after it.
Models the greedy not-square-bracket-star followed by a literal closing
bracket. -/
def splitAtRBracket : List Char → Option (List Char × List Char)
  | [] => none
  | c :: cs =>
      if c = ']' then some ([], cs)
      else (splitAtRBracket cs).map (fun p => (p.1.cons c, p.2))

/-- Consume one expected literal character. -/
def expectChar (c : Char) : List Char → Option (List Char)
  | [] => none
  | d :: ds => if d = c then some ds else none

/-- The raw data captured by one match of SELECT_STAR_RE in app.py: the full
matched text, the table group and the body group (everything between the
table name and the terminating period). -/
structure RawSel where
  text : List Char
  table : List Char
  body : List Char
  deriving DecidableEq, Repr

/-- The regex piece (SINGLE backslash-s-plus)? star: the engine first tries
the SINGLE branch and falls back to the bare star; the two cannot overlap
because a star is not a letter. -/
def afterSingleStar (r2 : List Char) : Option (List Char) :=
  match (do
    let ra ← matchCI "single".data r2
    let rb ← ws1 ra
    expectChar '*' rb) with
  | some r => some r
  | none => expectChar '*' r2

/-- One attempt of SELECT_STAR_RE at the current position, embedding the
pattern SELECT backslash-s-plus (SINGLE backslash-s-plus)? star
backslash-s-plus FROM backslash-s-plus word-plus lazy-body dot with
re.IGNORECASE and re.DOTALL.  Returns the captured groups and the rest of the
input after the terminating period. -/
def tryMatchSelect (s : List Char) : Option (RawSel × List Char) :=
  match matchCI "select".data s with
  | none => none
  | some r1 =>
    match ws1 r1 with
    | none => none
    | some r2 =>
      match afterSingleStar r2 with
      | none => none
      | some r3 =>
        match ws1 r3 with
        | none => none
        | some r4 =>
          match matchCI "from".data r4 with
          | none => none
          | some r5 =>
            match ws1 r5 with
            | none => none
            | some r6 =>
              match takeWord r6 with
              | none => none
              | some (table, r7) =>
                match splitAtDot r7 with
                | none => none
                | some (body, rest) =>
                  some (⟨s.take (s.length - rest.length), table, body⟩, rest)

/-- The three receiving-target kinds reported by find_selects: the strings
itab, wa and implicit of the source. -/
inductive TargetType where
  | itab
  | wa
  | implicit
  deriving DecidableEq, Repr

/-- A located statement as produced by find_selects: matched text, table,
target kind and name, and the match span within the scanned text. -/
structure Sel where
  text : List Char
  table : List Char
  targetType : TargetType
  targetName : List Char
  spanStart : Nat
  spanEnd : Nat
  deriving DecidableEq, Repr

/-- One attempt of INTO_TABLE_RE at the current position: INTO
backslash-s-plus TABLE backslash-s-plus named-word, with re.IGNORECASE.  The
leading word boundary is enforced by the scanner, the trailing one holds
automatically because the captured word run is maximal.  Returns the captured
name and the rest after the match. -/
def tryIntoTable (s : List Char) : Option (List Char × List Char) := do
  let r1 ← matchCI "into".data s
  let r2 ← ws1 r1
  let r3 ← matchCI "table".data r2
  let r4 ← ws1 r3
  takeWord r4

/-- One attempt of INTO_WA_RE at the current position: INTO backslash-s-plus,
a negative lookahead refusing TABLE followed by a word boundary, then the
named word, with re.IGNORECASE.  When the lookahead blocks, shorter
whitespace runs cannot rescue the match (the following character would be
whitespace, failing the word), so the attempt fails deterministically. -/
def tryIntoWa (s : List Char) : Option (List Char × List Char) := do
  let r1 ← matchCI "into".data s
  let r2 ← ws1 r1
  let blocked : Bool :=
    match matchCI "table".data r2 with
    | some [] => true
    | some (c :: _) => !isWordChar c
    | none => false
  if blocked then none else takeWord r2

/-- re.search for a pattern whose first token carries a leading word
boundary: try the pattern at every position whose preceding character is not
a word character, left to right. -/
def searchWB (try1 : List Char → Option α) : Bool → List Char → Option α
  | _, [] => none
  | prevWord, c :: cs =>
      match (if prevWord then none else try1 (c :: cs)) with
      | some x => some x
      | none => searchWB try1 (isWordChar c) cs

/-- INTO_TABLE_RE.search over a statement body. -/
def searchIntoTable (s : List Char) : Option (List Char × List Char) :=
  searchWB tryIntoTable false s

/-- INTO_WA_RE.search over a statement body. -/
def searchIntoWa (s : List Char) : Option (List Char × List Char) :=
  searchWB tryIntoWa false s

/-- The target classification of find_selects: a collection receive wins,
otherwise a scalar receive, otherwise the implicit form named after the
table. -/
def targetOf (body table : List Char) : TargetType × List Char :=
  match searchIntoTable body with
  | some (name, _) => (TargetType.itab, name)
  | none =>
    match searchIntoWa body with
    | some (name, _) => (TargetType.wa, name)
    | none => (TargetType.implicit, table)

/-- Build the located-statement record for one SELECT_STAR_RE match spanning
positions st to en of the scanned text. -/
def mkSelect (raw : RawSel) (st en : Nat) : Sel :=
  ⟨raw.text, raw.table, (targetOf raw.body raw.table).1,
   (targetOf raw.body raw.table).2, st, en⟩

/-- The finditer loop of find_selects: try SELECT_STAR_RE at each position,
emit a located statement on success and continue after the match, otherwise
advance one character.  The fuel argument only bounds the recursion; it is
always called with more fuel than characters, and every successful match
consumes at least one character. -/
def findSelectsAux : Nat → List Char → Nat → List Sel
  | 0, _, _ => []
  | _ + 1, [], _ => []
  | fuel + 1, c :: cs, pos =>
    match tryMatchSelect (c :: cs) with
    | some (raw, rest) =>
        let n := (c :: cs).length - rest.length
        mkSelect raw pos (pos + n) :: findSelectsAux fuel rest (pos + n)
    | none => findSelectsAux fuel cs (pos + 1)

/-- find_selects of app.py: all SELECT-star statements of one unit text, in
source order, with spans relative to that text. -/
def find_selects (txt : List Char) : List Sel :=
  findSelectsAux (txt.length + 1) txt 0

/-- finditer for a pattern without a leading word boundary: try at every
position, on success continue after the match, otherwise advance one
character.  Fuel always exceeds the character count. -/
def scanAll (try1 : List Char → Option (α × List Char)) : Nat → List Char → List α
  | 0, _ => []
  | _ + 1, [] => []
  | fuel + 1, c :: cs =>
    match try1 (c :: cs) with
    | some (a, rest) => a :: scanAll try1 fuel rest
    | none => scanAll try1 fuel cs

/-- LOOP_INTO_RE: LOOP at-table into-work-area terminated by a period, all
whitespace runs being backslash-s-plus except the backslash-s-star before the
final period. -/
def tryLoopInto (s : List Char) : Option ((List Char × List Char) × List Char) := do
  let r1 ← matchCI "loop".data s
  let r2 ← ws1 r1
  let r3 ← matchCI "at".data r2
  let r4 ← ws1 r3
  let (itab, r5) ← takeWord r4
  let r6 ← ws1 r5
  let r7 ← matchCI "into".data r6
  let r8 ← ws1 r7
  let (wa, r9) ← takeWord r8
  let r10 ← expectChar '.' (dropSpaces r9)
  some ((itab, wa), r10)

/-- LOOP_ASSIGNING_RE: LOOP at-table assigning a field symbol in angle
brackets, terminated by a period. -/
def tryLoopAssigning (s : List Char) : Option ((List Char × List Char) × List Char) := do
  let r1 ← matchCI "loop".data s
  let r2 ← ws1 r1
  let r3 ← matchCI "at".data r2
  let r4 ← ws1 r3
  let (itab, r5) ← takeWord r4
  let r6 ← ws1 r5
  let r7 ← matchCI "assigning".data r6
  let r8 ← ws1 r7
  let r9 ← expectChar '<' r8
  let (fs, r10) ← takeWord r9
  let r11 ← expectChar '>' r10
  let r12 ← expectChar '.' (dropSpaces r11)
  some ((itab, fs), r12)

/-- The backtracking tail of READ_TABLE_INTO_RE, parsed from the right end of
the dot-free segment: trailing backslash-s-star, then the captured work area
word, at least one whitespace, the INTO keyword, at least one whitespace.
The greedy dot-free filler before it absorbs everything else, so this
rightmost decomposition is the unique one the regex engine finds. -/
def parseRevInto (seg : List Char) : Option (List Char) := do
  let (waRev, r2) ← takeWord (dropSpaces seg.reverse)
  let r3 ← ws1 r2
  let r4 ← matchCI "otni".data r3
  let _ ← ws1 r4
  some waRev.reverse

/-- The corresponding tail of READ_TABLE_ASSIGNING_RE: trailing whitespace,
closing angle bracket, the field-symbol word, opening angle bracket, at least
one whitespace, the ASSIGNING keyword (matched reversed), at least one
whitespace. -/
def parseRevAssigning (seg : List Char) : Option (List Char) := do
  let r1 ← expectChar '>' (dropSpaces seg.reverse)
  let (fsRev, r2) ← takeWord r1
  let r3 ← expectChar '<' r2
  let r4 ← ws1 r3
  let r5 ← matchCI "gningissa".data r4
  let _ ← ws1 r5
  some fsRev.reverse

/-- READ_TABLE_INTO_RE: READ TABLE table-word, a dot-free run, then INTO and
the work area before the first period after the table word. -/
def tryReadInto (s : List Char) : Option ((List Char × List Char) × List Char) := do
  let r1 ← matchCI "read".data s
  let r2 ← ws1 r1
  let r3 ← matchCI "table".data r2
  let r4 ← ws1 r3
  let (itab, r5) ← takeWord r4
  let (seg, rest) ← splitAtDot r5
  let wa ← parseRevInto seg
  some ((itab, wa), rest)

/-- READ_TABLE_ASSIGNING_RE: as tryReadInto but assigning a field symbol. -/
def tryReadAssigning (s : List Char) : Option ((List Char × List Char) × List Char) := do
  let r1 ← matchCI "read".data s
  let r2 ← ws1 r1
  let r3 ← matchCI "table".data r2
  let r4 ← ws1 r3
  let (itab, r5) ← takeWord r4
  let (seg, rest) ← splitAtDot r5
  let fs ← parseRevAssigning seg
  some ((itab, fs), rest)

/-- ASSIGN_FS_ITAB_RE: ASSIGN table-word, an index expression in square
brackets, TO and a field symbol in angle brackets, terminated by a period. -/
def tryAssignFsItab (s : List Char) : Option ((List Char × List Char) × List Char) := do
  let r1 ← matchCI "assign".data s
  let r2 ← ws1 r1
  let (itab, r3) ← takeWord r2
  let r4 ← expectChar '[' (dropSpaces r3)
  let (_, r5) ← splitAtRBracket r4
  let r6 ← ws1 r5
  let r7 ← matchCI "to".data r6
  let r8 ← ws1 r7
  let r9 ← expectChar '<' r8
  let (fs, r10) ← takeWord r9
  let r11 ← expectChar '>' r10
  let r12 ← expectChar '.' (dropSpaces r11)
  some ((itab, fs), r12)

/-- HEADER_LINE_LOOP_RE: LOOP at-table directly terminated by a period. -/
def tryHeaderLoop (s : List Char) : Option (List Char × List Char) := do
  let r1 ← matchCI "loop".data s
  let r2 ← ws1 r1
  let r3 ← matchCI "at".data r2
  let r4 ← ws1 r3
  let (itab, r5) ← takeWord r4
  let r6 ← expectChar '.' (dropSpaces r5)
  some (itab, r6)

/-- A field-symbol alias is stored with its angle brackets, as in the source
format string. -/
def fsName (fs : List Char) : List Char := '<' :: (fs ++ ['>'])

/-- The alias dictionary: internal-table name to the list of aliases, in
insertion order.  Models the Python dict of sets; consumers are insensitive
to the order. -/
def AliasDict := List (List Char × List (List Char))

/-- Add one owner/alias edge; a duplicate alias for the same owner is kept
once, as in a set. -/
def dictAdd : AliasDict → List Char → List Char → AliasDict
  | [], o, a => [(o, [a])]
  | (k, v) :: rest, o, a =>
      if k = o then (k, if a ∈ v then v else v ++ [a]) :: rest
      else (k, v) :: dictAdd rest o a

/-- Dictionary lookup with empty default, as aliases.get(name, set()). -/
def dictGet (d : AliasDict) (k : List Char) : List (List Char) :=
  match d.find? (fun p => p.1 == k) with
  | some p => p.2
  | none => []

/-- build_aliases of app.py: run the six scans over the whole corpus, in
source order per scan, and accumulate the edges. -/
def build_aliases (source : List Char) : AliasDict :=
  let fuel := source.length + 1
  let pairs : List (List Char × List Char) :=
    scanAll tryLoopInto fuel source
    ++ (scanAll tryLoopAssigning fuel source).map (fun p => (p.1, fsName p.2))
    ++ scanAll tryReadInto fuel source
    ++ (scanAll tryReadAssigning fuel source).map (fun p => (p.1, fsName p.2))
    ++ (scanAll tryAssignFsItab fuel source).map (fun p => (p.1, fsName p.2))
    ++ (scanAll tryHeaderLoop fuel source).map (fun t => (t, t))
  pairs.foldl (fun d p => dictAdd d p.1 p.2) []

/-- The shared prefix of the dynamic-component patterns: ASSIGN COMPONENT
some-word OF STRUCTURE followed by whitespace, case-insensitively.  Returns
the rest after the final whitespace run. -/
def tryAssignCompCore (s : List Char) : Option (List Char) := do
  let r1 ← matchCI "assign".data s
  let r2 ← ws1 r1
  let r3 ← matchCI "component".data r2
  let r4 ← ws1 r3
  let (_, r5) ← takeWord r4
  let r6 ← ws1 r5
  let r7 ← matchCI "of".data r6
  let r8 ← ws1 r7
  let r9 ← matchCI "structure".data r8
  ws1 r9

/-- A word boundary at the position after a match whose last character has
the given word-character status: exactly one of the two neighbours is a word
character, the end of input counting as a non-word neighbour. -/
def boundaryAfter (lastIsWord : Bool) : List Char → Bool
  | [] => lastIsWord
  | c :: _ => lastIsWord != isWordChar c

/-- One attempt of the app.py ambiguity pattern for a resolved name: the core
followed by the escaped name and a word boundary, with re.IGNORECASE. -/
def tryAssignCompName (n : List Char) (s : List Char) : Bool :=
  match tryAssignCompCore s with
  | none => false
  | some r =>
    match matchCI n r with
    | none => false
    | some r2 =>
        boundaryAfter
          (match n.reverse with
           | [] => false
           | c :: _ => isWordChar c) r2

/-- re.search for a pattern without a leading word boundary, as a Boolean:
try at every position. -/
def plainSearchB (test : List Char → Bool) : List Char → Bool
  | [] => false
  | c :: cs => test (c :: cs) || plainSearchB test cs

/-- app.py line 117: the corpus contains ASSIGN COMPONENT ... OF STRUCTURE
followed by the given name and a word boundary. -/
def assignCompFound (n : List Char) (flatSource : List Char) : Bool :=
  plainSearchB (tryAssignCompName n) flatSource

/-- app_V2.py line 100: as assignCompFound but without the trailing word
boundary. -/
def assignCompFoundV2 (n : List Char) (source : List Char) : Bool :=
  plainSearchB
    (fun s =>
      match tryAssignCompCore s with
      | none => false
      | some r => (matchCI n r).isSome) source

/-- app_V2.py line 102: the corpus contains ASSIGN COMPONENT ... OF STRUCTURE
applied to any field symbol in angle brackets. -/
def anyFsFound (source : List Char) : Bool :=
  plainSearchB
    (fun s =>
      match tryAssignCompCore s with
      | none => false
      | some r =>
        (do
          let r1 ← expectChar '<' r
          let (_, r2) ← takeWord r1
          expectChar '>' r2).isSome) source

/-- One attempt of the component-access template pattern at the current
position: the candidate name, a dash, and a maximal non-empty identifier.
The name matcher abstracts over the case sensitivity difference between
app.py (exact) and app_V2.py (case-insensitive). -/
def tryFieldAt (matchName : List Char → Option (List Char)) (s : List Char) :
    Option (List Char × List Char) := do
  let r1 ← matchName s
  let r2 ← expectChar '-' r1
  takeWord r2

/-- The finditer loop for the component-access template pattern: a position
not preceded by a word character, then one attempt; the matched identifier is
collected lower-cased.  After a match the scan continues behind it, the last
matched character being a word character. -/
def fieldScanAux (matchName : List Char → Option (List Char)) :
    Nat → Bool → List Char → List (List Char)
  | 0, _, _ => []
  | _ + 1, _, [] => []
  | fuel + 1, prevWord, c :: cs =>
    match (if prevWord then none else tryFieldAt matchName (c :: cs)) with
    | some (w, rest) => w.map lowerChar :: fieldScanAux matchName fuel true rest
    | none => fieldScanAux matchName fuel (isWordChar c) cs

/-- All component accesses of one candidate name over the corpus. -/
def fieldScan (matchName : List Char → Option (List Char)) (s : List Char) :
    List (List Char) :=
  fieldScanAux matchName (s.length + 1) false s

/-- The candidate-name set of collect_used_fields in app.py: the table for an
implicit target, the target plus its aliases for an internal table, the
target alone for a work area. -/
def selectNames (table : List Char) (tt : TargetType) (tname : List Char)
    (als : List (List Char)) : List (List Char) :=
  match tt with
  | .implicit => [table]
  | .itab => tname :: als
  | .wa => [tname]

/-- collect_used_fields of app.py: the multiset of harvested field names (the
Python set is modelled as this list up to duplication and order; consumers
sort and deduplicate) and the ambiguity flag.  The name is matched
case-sensitively here: the field pattern is compiled without re.IGNORECASE in
this file of the source. -/
def collect_used_fields (flatSource selectStmtText table : List Char)
    (tt : TargetType) (tname : List Char) (aliases : AliasDict) :
    List (List Char) × Bool :=
  let names := selectNames table tt tname (dictGet aliases tname)
  let ambiguous := names.any (fun n => assignCompFound n flatSource)
  let fields := names.flatMap (fun n => fieldScan (matchLit n) flatSource)
  (fields, ambiguous)

/-- collect_used_fields of app_V2.py: the name is matched case-insensitively,
the ambiguity rule skips implicit targets and adds the any-field-symbol rule
for internal tables, and the implicit candidate is the target name. -/
def collect_used_fields_V2 (source : List Char) (tt : TargetType)
    (tname : List Char) (aliases : AliasDict) : List (List Char) × Bool :=
  let names : List (List Char) :=
    match tt with
    | .implicit => [tname]
    | .itab => tname :: dictGet aliases tname
    | .wa => [tname]
  let ambiguous :=
    (decide (tt ≠ TargetType.implicit) && assignCompFoundV2 tname source)
    || (decide (tt = TargetType.itab) && anyFsFound source)
  let fields := names.flatMap (fun n => fieldScan (fun s => matchCI n s) source)
  (fields, ambiguous)

/-- Python string comparison on the character lists: lexicographic by code
point. -/
def strLe : List Char → List Char → Bool
  | [], _ => true
  | _ :: _, [] => false
  | a :: xs, b :: ys => if a = b then strLe xs ys else decide (a < b)

/-- The ordering used by the Python sorted builtin on strings, as a
proposition. -/
def StrLe (a b : List Char) : Prop := strLe a b = true

instance : DecidableRel StrLe := fun a b =>
  inferInstanceAs (Decidable (strLe a b = true))

/-- Python sorted on a list of strings. -/
def sortStrings (l : List (List Char)) : List (List Char) :=
  List.insertionSort StrLe l

/-- The passage from the harvested multiset to the reported field list:
sorted(set), i.e. deduplicate then sort ascending. -/
def sortDedup (l : List (List Char)) : List (List Char) :=
  sortStrings l.dedup

/-- Python " ".join. -/
def joinSpace (l : List (List Char)) : List Char :=
  List.intercalate [' '] l

/-- One attempt, at the current position, of the head pattern of
build_replacement_stmt: SELECT backslash-s-plus (SINGLE backslash-s-plus)?
star backslash-s-plus FROM backslash-s-plus word-plus, with re.IGNORECASE.
Returns the matched head and the rest of the input. -/
def tryHead (s : List Char) : Option (List Char × List Char) :=
  match matchCI "select".data s with
  | none => none
  | some r1 =>
    match ws1 r1 with
    | none => none
    | some r2 =>
      match afterSingleStar r2 with
      | none => none
      | some r3 =>
        match ws1 r3 with
        | none => none
        | some r4 =>
          match matchCI "from".data r4 with
          | none => none
          | some r5 =>
            match ws1 r5 with
            | none => none
            | some r6 =>
              match takeWord r6 with
              | none => none
              | some (_, r7) =>
                some (s.take (s.length - r7.length), r7)

/-- re.search of the head pattern: leftmost match, returning the text before
the match, the match, and the text after it. -/
def headSearchAux : List Char → List Char → Option (List Char × List Char × List Char)
  | _, [] => none
  | acc, c :: cs =>
    match tryHead (c :: cs) with
    | some (head, rest) => some (acc.reverse, head, rest)
    | none => headSearchAux (c :: acc) cs

/-- The head search of both build_replacement_stmt versions. -/
def headSearch (s : List Char) : Option (List Char × List Char × List Char) :=
  headSearchAux [] s

/-- re.sub of the first star in the head for the explicit field list. -/
def subFirstStar : List Char → List Char → List Char
  | [], _ => []
  | c :: cs, repl => if c = '*' then repl ++ cs else c :: subFirstStar cs repl

/-- Python str.strip on the ASCII whitespace model. -/
def stripChars (s : List Char) : List Char :=
  (dropSpaces (dropSpaces s).reverse).reverse

/-- re.sub with empty replacement for a pattern carrying a leading word
boundary: scan as the searcher does, drop matched stretches, continue after
each match.  After a removed match the preceding original character is the
last character of the captured name, a word character, so the flag is set. -/
def removeWB (try1 : List Char → Option (α × List Char)) :
    Nat → Bool → List Char → List Char
  | 0, _, s => s
  | _ + 1, _, [] => []
  | fuel + 1, prevWord, c :: cs =>
    match (if prevWord then none else try1 (c :: cs)) with
    | some (_, rest) => removeWB try1 fuel true rest
    | none => c :: removeWB try1 fuel (isWordChar c) cs

/-- INTO_TABLE_RE.sub with empty replacement. -/
def removeIntoTable (s : List Char) : List Char :=
  removeWB tryIntoTable (s.length + 1) false s

/-- INTO_WA_RE.sub with empty replacement. -/
def removeIntoWa (s : List Char) : List Char :=
  removeWB tryIntoWa (s.length + 1) false s

/-- Remove a trailing period if present, as body[:-1] guarded by endswith. -/
def dropTrailingDot (s : List Char) : List Char :=
  match s.reverse with
  | '.' :: r => r.reverse
  | _ => s

/-- The normalized receiving clause of app.py, absent for implicit
targets. -/
def intoCorresponding (tt : TargetType) (tname : List Char) : Option (List Char) :=
  match tt with
  | .itab => some ("INTO CORRESPONDING FIELDS OF TABLE ".data ++ tname)
  | .wa => some ("INTO CORRESPONDING FIELDS OF ".data ++ tname)
  | .implicit => none

/-- build_replacement_stmt of app.py: find the head, replace the star by the
sorted joined field list (or keep the star when the list is empty), take the
body after the head without its trailing period, strip any INTO clause from
it, strip surrounding whitespace, and reassemble with the normalized
receiving clause on a fresh indented line when the target is explicit. -/
def build_replacement_stmt (selText table : List Char) (fields : List (List Char))
    (tt : TargetType) (tname : List Char) : List Char :=
  match headSearch selText with
  | none => selText
  | some (_, head, rest) =>
    let explicit := if fields.isEmpty then ['*'] else joinSpace (sortStrings fields)
    let head2 := subFirstStar head explicit
    let body1 := dropTrailingDot rest
    let bodyNoInto := removeIntoWa (removeIntoTable body1)
    let parts := stripChars bodyNoInto
    match intoCorresponding tt tname with
    | some intoCf =>
        if parts.isEmpty then head2 ++ ("\n  ".data ++ (intoCf ++ ['.']))
        else head2 ++ (parts ++ ("\n  ".data ++ (intoCf ++ ['.'])))
    | none => head2 ++ (parts ++ ['.'])

/-- A test for the word INTO enclosed in word boundaries, tried at the
current position; the leading boundary is enforced by the scanner. -/
def tryIntoWord (s : List Char) : Bool :=
  match matchCI "into".data s with
  | none => false
  | some r =>
    match r with
    | [] => true
    | c :: _ => !isWordChar c

/-- Boolean re.search for a pattern with a leading word boundary. -/
def searchWBb (test : List Char → Bool) : Bool → List Char → Bool
  | _, [] => false
  | prevWord, c :: cs =>
      (!prevWord && test (c :: cs)) || searchWBb test (isWordChar c) cs

/-- app_V2.py line 128: the statement contains the word INTO. -/
def hasIntoWB (s : List Char) : Bool :=
  searchWBb tryIntoWord false s

/-- One attempt of the app_V2.py substitution pattern, an alternation without
word boundaries: INTO TABLE word, or else INTO word.  Returns the rest after
the match. -/
def tryIntoEither (s : List Char) : Option (List Char) := do
  let r1 ← matchCI "into".data s
  let r2 ← ws1 r1
  match (do
    let r3 ← matchCI "table".data r2
    let r4 ← ws1 r3
    let (_, r5) ← takeWord r4
    some r5) with
  | some r5 => some r5
  | none => (takeWord r2).map (fun p => p.2)

/-- re.sub replacing every match of a pattern without word boundaries. -/
def replaceAllNoWB (try1 : List Char → Option (List Char)) (repl : List Char) :
    Nat → List Char → List Char
  | 0, s => s
  | _ + 1, [] => []
  | fuel + 1, c :: cs =>
    match try1 (c :: cs) with
    | some rest => repl ++ replaceAllNoWB try1 repl fuel rest
    | none => c :: replaceAllNoWB try1 repl fuel cs

/-- build_replacement_stmt of app_V2.py: replace the star in the head; for
explicit targets replace every INTO clause in place by the normalized one
(or append one before the final character when the statement has no INTO);
for implicit targets keep the post-head text verbatim.  The post-head slice
starts at the length of the head, as in the source. -/
def build_replacement_stmt_V2 (selText table : List Char) (fields : List (List Char))
    (tt : TargetType) (tname : List Char) : List Char :=
  match headSearch selText with
  | none => selText
  | some (_, head, _) =>
    let explicit := joinSpace (sortStrings fields)
    let headRepl := subFirstStar head explicit
    match tt with
    | TargetType.implicit => headRepl ++ selText.drop head.length
    | tt2 =>
      let intoClause :=
        match tt2 with
        | TargetType.itab => "INTO CORRESPONDING FIELDS OF TABLE ".data ++ tname
        | _ => "INTO CORRESPONDING FIELDS OF ".data ++ tname
      if hasIntoWB selText then
        headRepl ++ replaceAllNoWB tryIntoEither intoClause (selText.length + 1)
          (selText.drop head.length)
      else
        headRepl ++ ((selText.drop head.length).dropLast ++ ([' '] ++ (intoClause ++ ['.'])))

/-- The descending-start order used to apply replacements, as sorted with
key = start offset and reverse = True. -/
def ReplGe (a b : (Nat × Nat) × List Char) : Prop := b.1.1 ≤ a.1.1

instance : DecidableRel ReplGe := fun a b =>
  inferInstanceAs (Decidable (b.1.1 ≤ a.1.1))

/-- apply_span_replacements: splice every replacement into the text, applied
in descending order of starting offset. -/
def apply_span_replacements (source : List Char)
    (repls : List ((Nat × Nat) × List Char)) : List Char :=
  (List.insertionSort ReplGe repls).foldl
    (fun out p => out.take p.1.1 ++ p.2 ++ out.drop p.1.2) source

/-- The compilation-unit record of the source (the source class is named
Unit, renamed here to avoid the Lean builtin).  The engine reads only the
code field and echoes the rest. -/
structure CodeUnit where
  pgm_name : String
  inc_name : String
  type : String
  name : Option String
  class_implementation : Option String
  start_line : Option Int
  end_line : Option Int
  code : Option String
  deriving DecidableEq, Repr

/-- u.code or the empty string, as a character list. -/
def codeChars (u : CodeUnit) : List Char := (u.code.getD "").data

/-- concat_units: every unit's code followed by one newline. -/
def concat_units (units : List CodeUnit) : List Char :=
  (units.map (fun u => codeChars u ++ ['\n'])).flatten

/-- One per-statement finding of the analyze endpoint. -/
structure SelResult where
  table : List Char
  target_type : TargetType
  target_name : List Char
  start_char_in_unit : Nat
  end_char_in_unit : Nat
  used_fields : List (List Char)
  ambiguous : Bool
  suggested_fields : Option (List (List Char))
  suggested_statement : Option (List Char)
  deriving DecidableEq, Repr

/-- The per-statement body of the analyze loop in app.py: harvest, report the
sorted deduplicated field list, and emit the suggestion pair only when the
harvest is non-empty and unambiguous. -/
def analyzeSel (flat : List Char) (aliases : AliasDict) (sel : Sel) : SelResult :=
  let fa := collect_used_fields flat sel.text sel.table sel.targetType sel.targetName aliases
  let used := sortDedup fa.1
  let suggestedFields : Option (List (List Char)) :=
    if !used.isEmpty && !fa.2 then some used else none
  let suggestedStmt : Option (List Char) :=
    match suggestedFields with
    | some fs => some (build_replacement_stmt sel.text sel.table fs sel.targetType sel.targetName)
    | none => none
  ⟨sel.table, sel.targetType, sel.targetName, sel.spanStart, sel.spanEnd,
   used, fa.2, suggestedFields, suggestedStmt⟩

/-- One output row of the analyze endpoint: the unit echoed with its
findings. -/
structure AnalyzedUnit where
  unit : CodeUnit
  selects : List SelResult
  deriving DecidableEq, Repr

/-- analyze_array of app.py. -/
def analyze_array (units : List CodeUnit) : List AnalyzedUnit :=
  let flat := concat_units units
  let aliases := build_aliases flat
  units.map (fun u => ⟨u, (find_selects (codeChars u)).map (analyzeSel flat aliases)⟩)

/-- The per-statement body of the remediate loop in app.py: a replacement is
produced exactly when the harvest is non-empty and unambiguous. -/
def mkRepl (flat : List Char) (aliases : AliasDict) (sel : Sel) :
    Option ((Nat × Nat) × List Char) :=
  let fa := collect_used_fields flat sel.text sel.table sel.targetType sel.targetName aliases
  let used := sortDedup fa.1
  if !used.isEmpty && !fa.2 then
    some ((sel.spanStart, sel.spanEnd),
      build_replacement_stmt sel.text sel.table used sel.targetType sel.targetName)
  else none

/-- The per-unit remediation of app.py: locate, build qualifying
replacements, splice. -/
def remediateCode (flat : List Char) (aliases : AliasDict) (src : List Char) : List Char :=
  apply_span_replacements src ((find_selects src).filterMap (mkRepl flat aliases))

/-- One output row of the remediate endpoint. -/
structure RemediatedUnit where
  unit : CodeUnit
  remediated_code : List Char
  deriving DecidableEq, Repr

/-- remediate_array of app.py. -/
def remediate_array (units : List CodeUnit) : List RemediatedUnit :=
  let flat := concat_units units
  let aliases := build_aliases flat
  units.map (fun u => ⟨u, remediateCode flat aliases (codeChars u)⟩)

/-- The corpus of the C2 counterexample: a dynamic component access against
an unrelated field symbol, plus one static field access on the target. -/
def c2flat : List Char :=
  "ASSIGN COMPONENT lv OF STRUCTURE <fs> TO <g>. itab-aaa.".data

/-- The single unit of the C1 scenario. -/
def c1unit : CodeUnit :=
  ⟨"ZPGM", "ZINC", "PROG", none, none, none, none,
   some "SELECT * FROM spfli INTO wa_spfli. WRITE wa_spfli-carrid. WRITE wa_spfli-connid."⟩

/-- The concatenated corpus of the C1 scenario batch. -/
def c1flat : List Char := concat_units [c1unit]

/-- The located statement of the C1 scenario as find_selects reports it. -/
def c1sel : Sel :=
  ⟨"SELECT * FROM spfli INTO wa_spfli.".data, "spfli".data,
   TargetType.wa, "wa_spfli".data, 0, 34⟩

/-! ### Progress lemmas for the matchers -/

theorem matchCI_length {p s r : List Char} (h : matchCI p s = some r) :
    r.length + p.length = s.length := by
  induction p generalizing s with
  | nil =>
      simp only [matchCI, Option.some.injEq] at h
      subst h; simp
  | cons a ps ih =>
      cases s with
      | nil => simp [matchCI] at h
      | cons c cs =>
          simp only [matchCI] at h
          split at h
          · have := ih h
            simp only [List.length_cons]
            omega
          · exact absurd h (by simp)

theorem dropSpaces_length_le (s : List Char) : (dropSpaces s).length ≤ s.length := by
  induction s with
  | nil => simp [dropSpaces]
  | cons c cs ih =>
      simp only [dropSpaces]
      split
      · simp only [List.length_cons]; omega
      · simp

theorem ws1_length {s r : List Char} (h : ws1 s = some r) : r.length < s.length := by
  cases s with
  | nil => simp [ws1] at h
  | cons c cs =>
      simp only [ws1] at h
      split at h
      · simp only [Option.some.injEq] at h
        subst h
        have := dropSpaces_length_le cs
        simp only [List.length_cons]
        omega
      · exact absurd h (by simp)

theorem takeWordAux_append (s : List Char) :
    (takeWordAux s).1 ++ (takeWordAux s).2 = s := by
  induction s with
  | nil => simp [takeWordAux]
  | cons c cs ih =>
      simp only [takeWordAux]
      split
      · simpa using ih
      · simp

theorem takeWord_eq {s w r : List Char} (h : takeWord s = some (w, r)) :
    w ++ r = s ∧ w ≠ [] := by
  unfold takeWord at h
  split at h
  · exact absurd h (by simp)
  · rename_i wa ra hcond heq
    simp only [Option.some.injEq, Prod.mk.injEq] at h
    obtain ⟨hw, hr⟩ := h
    subst hw; subst hr
    have happ := takeWordAux_append s
    rw [heq] at happ
    exact ⟨happ, fun hn => hcond hn⟩

theorem takeWord_length {s w r : List Char} (h : takeWord s = some (w, r)) :
    r.length < s.length := by
  obtain ⟨heq, hne⟩ := takeWord_eq h
  have hlen : w.length + r.length = s.length := by
    rw [← heq]; simp
  have : 0 < w.length := List.length_pos.mpr hne
  omega

theorem expectChar_length {c : Char} {s r : List Char} (h : expectChar c s = some r) :
    r.length + 1 = s.length := by
  cases s with
  | nil => simp [expectChar] at h
  | cons d ds =>
      simp only [expectChar] at h
      split at h
      · simp only [Option.some.injEq] at h; subst h; simp
      · exact absurd h (by simp)

theorem afterSingleStar_length {r2 r3 : List Char} (h : afterSingleStar r2 = some r3) :
    r3.length < r2.length := by
  unfold afterSingleStar at h
  split at h
  · rename_i r hsome
    simp only [Option.some.injEq] at h
    subst h
    cases ha : matchCI "single".data r2 with
    | none => rw [ha] at hsome; simp at hsome
    | some ra =>
        rw [ha] at hsome
        simp only [Option.bind_eq_bind, Option.some_bind] at hsome
        cases hb : ws1 ra with
        | none => rw [hb] at hsome; simp at hsome
        | some rb =>
            rw [hb] at hsome
            simp only [Option.some_bind] at hsome
            have h1 := matchCI_length ha
            have h2 := ws1_length hb
            have h3 := expectChar_length hsome
            omega
  · have := expectChar_length h
    omega

theorem splitAtDot_eq {s b r : List Char} (h : splitAtDot s = some (b, r)) :
    s = b ++ '.' :: r := by
  induction s generalizing b r with
  | nil => simp [splitAtDot] at h
  | cons c cs ih =>
      simp only [splitAtDot] at h
      split at h
      · rename_i hc
        simp only [Option.some.injEq, Prod.mk.injEq] at h
        obtain ⟨hb, hr⟩ := h
        subst hb; subst hr; subst hc
        simp
      · cases hin : splitAtDot cs with
        | none => rw [hin] at h; simp at h
        | some p =>
            obtain ⟨b0, r0⟩ := p
            rw [hin] at h
            simp only [Option.map_some', Option.some.injEq, Prod.mk.injEq] at h
            obtain ⟨hb, hr⟩ := h
            subst hb; subst hr
            have := ih hin
            simp [this]

theorem splitAtDot_length {s b r : List Char} (h : splitAtDot s = some (b, r)) :
    r.length < s.length := by
  have heq := splitAtDot_eq h
  subst heq
  simp only [List.length_append, List.length_cons]
  omega

theorem tryMatchSelect_length {s : List Char} {raw : RawSel} {rest : List Char}
    (h : tryMatchSelect s = some (raw, rest)) : rest.length < s.length := by
  unfold tryMatchSelect at h
  cases h1 : matchCI "select".data s with
  | none => rw [h1] at h; simp at h
  | some r1 =>
    rw [h1] at h
    dsimp only at h
    cases h2 : ws1 r1 with
    | none => rw [h2] at h; simp at h
    | some r2 =>
      rw [h2] at h
      dsimp only at h
      cases h3 : afterSingleStar r2 with
      | none => rw [h3] at h; simp at h
      | some r3 =>
        rw [h3] at h
        dsimp only at h
        cases h4 : ws1 r3 with
        | none => rw [h4] at h; simp at h
        | some r4 =>
          rw [h4] at h
          dsimp only at h
          cases h5 : matchCI "from".data r4 with
          | none => rw [h5] at h; simp at h
          | some r5 =>
            rw [h5] at h
            dsimp only at h
            cases h6 : ws1 r5 with
            | none => rw [h6] at h; simp at h
            | some r6 =>
              rw [h6] at h
              dsimp only at h
              cases h7 : takeWord r6 with
              | none => rw [h7] at h; simp at h
              | some p7 =>
                obtain ⟨table, r7⟩ := p7
                rw [h7] at h
                dsimp only at h
                cases h8 : splitAtDot r7 with
                | none => rw [h8] at h; simp at h
                | some p8 =>
                  obtain ⟨body, r8⟩ := p8
                  rw [h8] at h
                  dsimp only at h
                  simp only [Option.some.injEq, Prod.mk.injEq] at h
                  obtain ⟨-, hr⟩ := h
                  subst hr
                  have l1 := matchCI_length h1
                  have l2 := ws1_length h2
                  have l3 := afterSingleStar_length h3
                  have l4 := ws1_length h4
                  have l5 := matchCI_length h5
                  have l6 := ws1_length h6
                  have l7 := takeWord_length h7
                  have l8 := splitAtDot_length h8
                  omega

theorem findSelectsAux_mem_spans :
    ∀ (fuel : Nat) (s : List Char) (pos : Nat) (sel : Sel),
      sel ∈ findSelectsAux fuel s pos →
      pos ≤ sel.spanStart ∧ sel.spanStart < sel.spanEnd ∧ sel.spanEnd ≤ pos + s.length := by
  intro fuel
  induction fuel with
  | zero => intro s pos sel h; simp [findSelectsAux] at h
  | succ fuel ih =>
    intro s pos sel h
    match s with
    | [] => simp [findSelectsAux] at h
    | c :: cs =>
      rw [findSelectsAux] at h
      cases hm : tryMatchSelect (c :: cs) with
      | none =>
        rw [hm] at h
        have := ih cs (pos + 1) sel h
        simp only [List.length_cons]
        omega
      | some p =>
        obtain ⟨raw, rest⟩ := p
        rw [hm] at h
        simp only [List.mem_cons] at h
        have hlt := tryMatchSelect_length hm
        rcases h with hsel | hsel
        · subst hsel
          simp only [mkSelect, List.length_cons] at hlt ⊢
          omega
        · have hrest := ih rest (pos + ((c :: cs).length - rest.length)) sel hsel
          simp only [List.length_cons] at hlt hrest ⊢
          omega

theorem findSelectsAux_pairwise :
    ∀ (fuel : Nat) (s : List Char) (pos : Nat),
      (findSelectsAux fuel s pos).Pairwise (fun a b => a.spanEnd ≤ b.spanStart) := by
  intro fuel
  induction fuel with
  | zero => intro s pos; simp [findSelectsAux]
  | succ fuel ih =>
    intro s pos
    match s with
    | [] => simp [findSelectsAux]
    | c :: cs =>
      rw [findSelectsAux]
      cases hm : tryMatchSelect (c :: cs) with
      | none => exact ih cs (pos + 1)
      | some p =>
        obtain ⟨raw, rest⟩ := p
        refine List.Pairwise.cons ?_ (ih rest _)
        intro b hb
        have hsp := findSelectsAux_mem_spans fuel rest _ b hb
        simp only [mkSelect]
        omega

theorem removeWB_of_search_none {α : Type} (try1 : List Char → Option (α × List Char)) :
    ∀ (s : List Char) (pw : Bool), searchWB try1 pw s = none →
      ∀ fuel, removeWB try1 fuel pw s = s := by
  intro s
  induction s with
  | nil => intro pw h fuel; cases fuel <;> simp [removeWB]
  | cons c cs ih =>
    intro pw h fuel
    cases fuel with
    | zero => simp [removeWB]
    | succ fuel =>
      simp only [searchWB] at h
      simp only [removeWB]
      cases htry : (if pw then none else try1 (c :: cs)) with
      | some x =>
        rw [htry] at h
        simp at h
      | none =>
        rw [htry] at h
        rw [ih (isWordChar c) h fuel]

/-! ### The lexicographic string order and the lower-casing map -/

theorem strLe_total (a b : List Char) : strLe a b = true ∨ strLe b a = true := by
  induction a generalizing b with
  | nil => left; rfl
  | cons x xs ih =>
    cases b with
    | nil => right; rfl
    | cons y ys =>
      by_cases hxy : x = y
      · subst hxy
        simp only [strLe, if_pos rfl]
        exact ih ys
      · rcases lt_or_gt_of_ne hxy with hlt | hgt
        · left; simp [strLe, hxy, hlt]
        · right; simp [strLe, Ne.symm hxy, hgt]

theorem strLe_trans {a b c : List Char} (hab : strLe a b = true)
    (hbc : strLe b c = true) : strLe a c = true := by
  induction a generalizing b c with
  | nil => rfl
  | cons x xs ih =>
    cases b with
    | nil => simp [strLe] at hab
    | cons y ys =>
      cases c with
      | nil => simp [strLe] at hbc
      | cons z zs =>
        simp only [strLe] at hab hbc ⊢
        by_cases hxy : x = y
        · subst hxy
          rw [if_pos rfl] at hab
          by_cases hyz : x = z
          · subst hyz
            rw [if_pos rfl] at hbc
            rw [if_pos rfl]
            exact ih hab hbc
          · rw [if_neg hyz] at hbc
            rw [if_neg hyz]
            exact hbc
        · rw [if_neg hxy] at hab
          have hxylt : x < y := by simpa using hab
          by_cases hyz : y = z
          · subst hyz
            rw [if_neg hxy]
            simpa using hxylt
          · rw [if_neg hyz] at hbc
            have hyzlt : y < z := by simpa using hbc
            have hxz : x < z := lt_trans hxylt hyzlt
            rw [if_neg (ne_of_lt hxz)]
            simpa using hxz

theorem strLe_antisymm {a b : List Char} (hab : strLe a b = true)
    (hba : strLe b a = true) : a = b := by
  induction a generalizing b with
  | nil =>
    cases b with
    | nil => rfl
    | cons y ys => simp [strLe] at hba
  | cons x xs ih =>
    cases b with
    | nil => simp [strLe] at hab
    | cons y ys =>
      simp only [strLe] at hab hba
      by_cases hxy : x = y
      · subst hxy
        rw [if_pos rfl] at hab hba
        rw [ih hab hba]
      · rw [if_neg hxy] at hab
        rw [if_neg (Ne.symm hxy)] at hba
        have h1 : x < y := by simpa using hab
        have h2 : y < x := by simpa using hba
        exact absurd h2 (not_lt.mpr (le_of_lt h1))

instance : IsTotal (List Char) StrLe := ⟨fun a b => strLe_total a b⟩

instance : IsTrans (List Char) StrLe :=
  ⟨fun _ _ _ hab hbc => strLe_trans hab hbc⟩

instance : IsAntisymm (List Char) StrLe :=
  ⟨fun _ _ hab hba => strLe_antisymm hab hba⟩

theorem lowerChar_idem (c : Char) : lowerChar (lowerChar c) = lowerChar c := by
  cases h : upperLowerTable.find? (fun q => q.1 == c) with
  | none =>
      have hc : lowerChar c = c := by unfold lowerChar; rw [h]
      rw [hc]; exact hc
  | some p =>
      have hc : lowerChar c = p.2 := by unfold lowerChar; rw [h]
      rw [hc]
      have hmem : p ∈ upperLowerTable := List.mem_of_find?_eq_some h
      fin_cases hmem <;> decide

theorem mapLower_idem (w : List Char) :
    (w.map lowerChar).map lowerChar = w.map lowerChar := by
  rw [List.map_map]
  exact List.map_congr_left (fun c _ => lowerChar_idem c)

theorem fieldScanAux_lower (matchName : List Char → Option (List Char)) :
    ∀ (fuel : Nat) (pw : Bool) (s : List Char) (f : List Char),
      f ∈ fieldScanAux matchName fuel pw s → ∃ w : List Char, f = w.map lowerChar := by
  intro fuel
  induction fuel with
  | zero => intro pw s f h; simp [fieldScanAux] at h
  | succ fuel ih =>
    intro pw s f h
    match s with
    | [] => simp [fieldScanAux] at h
    | c :: cs =>
      rw [fieldScanAux] at h
      cases hm : (if pw then none else tryFieldAt matchName (c :: cs)) with
      | none =>
        rw [hm] at h
        exact ih (isWordChar c) cs f h
      | some p =>
        obtain ⟨w, rest⟩ := p
        rw [hm] at h
        simp only [List.mem_cons] at h
        rcases h with hf | hf
        · exact ⟨w, hf⟩
        · exact ih true rest f hf

/-! ### Sorted deduplicated field lists -/

theorem sortDedup_sorted (l : List (List Char)) : List.Sorted StrLe (sortDedup l) :=
  List.sorted_insertionSort StrLe l.dedup

theorem sortDedup_perm (l : List (List Char)) : (sortDedup l).Perm l.dedup :=
  List.perm_insertionSort StrLe l.dedup

theorem sortDedup_nodup (l : List (List Char)) : (sortDedup l).Nodup :=
  (sortDedup_perm l).symm.nodup (List.nodup_dedup l)

theorem sortDedup_perm_inv {l1 l2 : List (List Char)} (hp : l1.Perm l2) :
    sortDedup l1 = sortDedup l2 :=
  List.eq_of_perm_of_sorted
    ((sortDedup_perm l1).trans (hp.dedup.trans (sortDedup_perm l2).symm))
    (sortDedup_sorted l1) (sortDedup_sorted l2)

theorem any_perm_inv {l1 l2 : List (List Char)} (p : List Char → Bool)
    (h : l1.Perm l2) : l1.any p = l2.any p := by
  induction h with
  | nil => rfl
  | cons x h ih => simp only [List.any_cons, ih]
  | swap x y l => simp only [List.any_cons, ← Bool.or_assoc, Bool.or_comm]
  | trans h1 h2 ih1 ih2 => rw [ih1, ih2]

/-- Every harvested field of app.py collect_used_fields is produced by the
lower-casing map, hence fixed by it. -/
theorem collect_fields_lower {flat selText table : List Char} {tt : TargetType}
    {tname : List Char} {aliases : AliasDict} {f : List Char}
    (hf : f ∈ (collect_used_fields flat selText table tt tname aliases).1) :
    f.map lowerChar = f := by
  unfold collect_used_fields at hf
  simp only [List.mem_flatMap, fieldScan] at hf
  obtain ⟨n, hn, hfin⟩ := hf
  obtain ⟨w, rfl⟩ := fieldScanAux_lower (matchLit n) (flat.length + 1) false flat f hfin
  exact mapLower_idem w

/-! ### The claims -/

/-- C10: the statement synthesizer is total on arbitrary statement text: in
both app.py and app_V2.py, when the fetch-all head pattern cannot be found in
the input string, build_replacement_stmt returns the input unchanged. -/
theorem c10_synthesizer_total (s table : List Char) (fields : List (List Char))
    (tt : TargetType) (tname : List Char) (h : headSearch s = none) :
    build_replacement_stmt s table fields tt tname = s
    ∧ build_replacement_stmt_V2 s table fields tt tname = s := by
  constructor
  · unfold build_replacement_stmt
    rw [h]
  · unfold build_replacement_stmt_V2
    rw [h]

theorem c10_synthesizer_total_witness :
    headSearch "hello".data = none
    ∧ (build_replacement_stmt "hello".data "t".data [] TargetType.wa "x".data
        = "hello".data
      ∧ build_replacement_stmt_V2 "hello".data "t".data [] TargetType.wa "x".data
        = "hello".data) :=
  ⟨by decide,
   c10_synthesizer_total "hello".data "t".data [] TargetType.wa "x".data (by decide)⟩

/-- C6: Remediate is the identity on a unit text with no located fetch-all
statement, and more generally whenever the qualifying replacement set for a
unit is empty the returned text equals the input. -/
theorem c6_remediate_identity (flat : List Char) (aliases : AliasDict) (src : List Char) :
    (find_selects src = [] → remediateCode flat aliases src = src)
    ∧ ((find_selects src).filterMap (mkRepl flat aliases) = [] →
        remediateCode flat aliases src = src) := by
  constructor
  · intro h
    unfold remediateCode
    rw [h]
    rfl
  · intro h
    unfold remediateCode
    rw [h]
    rfl

theorem c6_remediate_identity_witness :
    find_selects "".data = []
    ∧ remediateCode [] ([] : AliasDict) "".data = "".data :=
  ⟨by decide, (c6_remediate_identity [] ([] : AliasDict) "".data).1 (by decide)⟩

/-- C9: Analyze and Remediate are deterministic pure functions: the passage
from the harvested field multiset to the reported list is invariant under
permutation (set-iteration order does not matter beyond the final sort), the
any-fold deciding ambiguity is likewise order-invariant, and two runs on the
same batch give the same output. -/
theorem c9_determinism :
    (∀ l1 l2 : List (List Char), l1.Perm l2 → sortDedup l1 = sortDedup l2)
    ∧ (∀ (p : List Char → Bool) (ns1 ns2 : List (List Char)),
        ns1.Perm ns2 → ns1.any p = ns2.any p)
    ∧ (∀ units : List CodeUnit,
        analyze_array units = analyze_array units
        ∧ remediate_array units = remediate_array units) :=
  ⟨fun _ _ hp => sortDedup_perm_inv hp,
   fun p _ _ h => any_perm_inv p h,
   fun _ => ⟨rfl, rfl⟩⟩

theorem c9_determinism_witness :
    (["b".data, "a".data].Perm ["a".data, "b".data])
    ∧ sortDedup ["b".data, "a".data] = sortDedup ["a".data, "b".data] :=
  ⟨by decide, c9_determinism.1 ["b".data, "a".data] ["a".data, "b".data] (by decide)⟩

/-- C8: the locator output is in source order, each span is a valid range
into the scanned unit text, and spans do not overlap: consecutive spans
satisfy end at most next start, and every span has start strictly below end
and end at most the text length. -/
theorem c8_span_invariants (txt : List Char) :
    (find_selects txt).Pairwise (fun a b => a.spanEnd ≤ b.spanStart)
    ∧ (∀ sel ∈ find_selects txt,
        sel.spanStart < sel.spanEnd ∧ sel.spanEnd ≤ txt.length) := by
  unfold find_selects
  constructor
  · exact findSelectsAux_pairwise (txt.length + 1) txt 0
  · intro sel h
    have hs := findSelectsAux_mem_spans (txt.length + 1) txt 0 sel h
    omega

theorem c8_span_invariants_witness :
    (⟨"SELECT * FROM t.".data, "t".data, TargetType.implicit, "t".data, 0, 16⟩ : Sel)
      ∈ find_selects "SELECT * FROM t.".data
    ∧ ((0 : Nat) < 16 ∧ 16 ≤ ("SELECT * FROM t.".data).length) := by
  refine ⟨by decide, ?_⟩
  have h := (c8_span_invariants "SELECT * FROM t.".data).2
      ⟨"SELECT * FROM t.".data, "t".data, TargetType.implicit, "t".data, 0, 16⟩ (by decide)
  exact h

/-- C2 (amended): in app.py, a dynamic-component-by-name access whose
structure operand is any of the resolved candidate names (in particular the
exact target name, for every target kind) forces ambiguous = true; the rule
that any dynamically-typed field symbol operand forces ambiguity for
internal-table targets holds in app_V2.py. -/
theorem c2_ambiguity_forcing :
    (∀ (flat selText table : List Char) (tt : TargetType) (tname : List Char)
        (aliases : AliasDict) (n : List Char),
        n ∈ selectNames table tt tname (dictGet aliases tname) →
        assignCompFound n flat = true →
        (collect_used_fields flat selText table tt tname aliases).2 = true)
    ∧ (∀ (source tname : List Char) (aliases : AliasDict),
        anyFsFound source = true →
        (collect_used_fields_V2 source TargetType.itab tname aliases).2 = true) := by
  constructor
  · intro flat selText table tt tname aliases n hmem hfound
    unfold collect_used_fields
    simp only
    rw [List.any_eq_true]
    exact ⟨n, hmem, hfound⟩
  · intro source tname aliases h
    unfold collect_used_fields_V2
    simp [h]

theorem c2_counterexample :
    anyFsFound c2flat = true
    ∧ (collect_used_fields c2flat [] "t".data TargetType.itab "itab".data
        ([] : AliasDict)).2 = false
    ∧ (collect_used_fields c2flat [] "t".data TargetType.itab "itab".data
        ([] : AliasDict)).1 = ["aaa".data] :=
  ⟨by decide, by decide, by decide⟩

theorem c2_ambiguity_forcing_witness :
    ("wa_vbak".data ∈ selectNames "vbak".data TargetType.wa "wa_vbak".data
        (dictGet ([] : AliasDict) "wa_vbak".data)
      ∧ assignCompFound "wa_vbak".data
          "ASSIGN COMPONENT lv OF STRUCTURE wa_vbak TO <fs>.".data = true)
    ∧ (collect_used_fields "ASSIGN COMPONENT lv OF STRUCTURE wa_vbak TO <fs>.".data
        [] "vbak".data TargetType.wa "wa_vbak".data ([] : AliasDict)).2 = true :=
  ⟨⟨by decide, by decide⟩,
   c2_ambiguity_forcing.1 "ASSIGN COMPONENT lv OF STRUCTURE wa_vbak TO <fs>.".data
     [] "vbak".data TargetType.wa "wa_vbak".data ([] : AliasDict) "wa_vbak".data
     (by decide) (by decide)⟩

/-- C4 (amended): every field harvested by app.py collect_used_fields is
stored lower-cased; app_V2.py matches the candidate name case-insensitively
(the upper-case access of the claim is collected there); app.py matches the
candidate name exactly, though its field identifier still matches either case
and is lower-cased. -/
theorem c4_field_case_handling :
    (∀ (flat selText table : List Char) (tt : TargetType) (tname : List Char)
        (aliases : AliasDict) (f : List Char),
        f ∈ (collect_used_fields flat selText table tt tname aliases).1 →
        f.map lowerChar = f)
    ∧ (collect_used_fields_V2 "WA_SPFLI-CARRID".data TargetType.wa "wa_spfli".data
        ([] : AliasDict)).1 = ["carrid".data]
    ∧ (collect_used_fields "wa_spfli-CARRID".data [] "spfli".data TargetType.wa
        "wa_spfli".data ([] : AliasDict)).1 = ["carrid".data] :=
  ⟨fun _ _ _ _ _ _ _ hf => collect_fields_lower hf, by decide, by decide⟩

theorem c4_counterexample :
    (collect_used_fields "WA_SPFLI-CARRID".data [] "spfli".data TargetType.wa
        "wa_spfli".data ([] : AliasDict)).1 = [] := by decide

theorem c4_field_case_handling_witness :
    "carrid".data ∈ (collect_used_fields "wa_spfli-carrid.".data [] "spfli".data
        TargetType.wa "wa_spfli".data ([] : AliasDict)).1
    ∧ ("carrid".data).map lowerChar = "carrid".data :=
  ⟨by decide,
   c4_field_case_handling.1 "wa_spfli-carrid.".data [] "spfli".data TargetType.wa
     "wa_spfli".data ([] : AliasDict) "carrid".data (by decide)⟩

/-- C3: a suggested field list and a suggested statement are emitted exactly
when the harvested field set is non-empty and the ambiguity flag is false,
and the remediation loop produces a replacement for a statement under exactly
the same condition. -/
theorem c3_suggestion_iff (flat : List Char) (aliases : AliasDict) (sel : Sel) :
    ((analyzeSel flat aliases sel).suggested_fields.isSome
        = (!(analyzeSel flat aliases sel).used_fields.isEmpty
            && !(analyzeSel flat aliases sel).ambiguous))
    ∧ ((analyzeSel flat aliases sel).suggested_statement.isSome
        = (analyzeSel flat aliases sel).suggested_fields.isSome)
    ∧ ((mkRepl flat aliases sel).isSome
        = (!(analyzeSel flat aliases sel).used_fields.isEmpty
            && !(analyzeSel flat aliases sel).ambiguous)) := by
  unfold analyzeSel mkRepl
  cases h1 : (sortDedup (collect_used_fields flat sel.text sel.table sel.targetType
      sel.targetName aliases).1).isEmpty <;>
    cases h2 : (collect_used_fields flat sel.text sel.table sel.targetType
        sel.targetName aliases).2 <;>
      simp [h1, h2]

/-- C5 (amended): a located statement whose body contains no receiving clause
is classified Implicit with the table as target name; for an implicit target
the synthesizer adds no receiving clause and replaces only the wildcard,
preserving the post-head body whenever that body carries no leading or
trailing whitespace (otherwise the whitespace is stripped, as the
counterexample shows). -/
theorem c5_implicit_handling :
    (∀ (raw : RawSel) (st en : Nat),
        searchIntoTable raw.body = none → searchIntoWa raw.body = none →
        (mkSelect raw st en).targetType = TargetType.implicit
        ∧ (mkSelect raw st en).targetName = raw.table)
    ∧ (∀ (selText table : List Char) (fields : List (List Char)) (tname : List Char)
        (pre head rest : List Char),
        headSearch selText = some (pre, head, rest) →
        searchIntoTable (dropTrailingDot rest) = none →
        searchIntoWa (dropTrailingDot rest) = none →
        stripChars (dropTrailingDot rest) = dropTrailingDot rest →
        fields ≠ [] →
        build_replacement_stmt selText table fields TargetType.implicit tname
          = subFirstStar head (joinSpace (sortStrings fields))
            ++ (dropTrailingDot rest ++ ['.'])) := by
  constructor
  · intro raw st en h1 h2
    unfold mkSelect targetOf
    rw [h1, h2]
    exact ⟨rfl, rfl⟩
  · intro selText table fields tname pre head rest hh h1 h2 h3 hne
    rcases fields with _ | ⟨f0, fs0⟩
    · exact absurd rfl hne
    · unfold build_replacement_stmt
      rw [hh]
      dsimp only
      have e1 : removeIntoTable (dropTrailingDot rest) = dropTrailingDot rest :=
        removeWB_of_search_none tryIntoTable (dropTrailingDot rest) false h1
          ((dropTrailingDot rest).length + 1)
      have e2 : removeIntoWa (dropTrailingDot rest) = dropTrailingDot rest :=
        removeWB_of_search_none tryIntoWa (dropTrailingDot rest) false h2
          ((dropTrailingDot rest).length + 1)
      rw [e1, e2, h3]
      simp [intoCorresponding]

theorem c5_counterexample :
    build_replacement_stmt "SELECT * FROM t WHERE a = 1.".data "t".data ["f1".data]
        TargetType.implicit "t".data = "SELECT f1 FROM tWHERE a = 1.".data
    ∧ ("SELECT f1 FROM tWHERE a = 1.".data : List Char)
        ≠ "SELECT f1 FROM t WHERE a = 1.".data :=
  ⟨by decide, by decide⟩

theorem c5_implicit_handling_witness :
    (searchIntoTable ([] : List Char) = none ∧ searchIntoWa ([] : List Char) = none
      ∧ (mkSelect ⟨"SELECT * FROM t.".data, "t".data, []⟩ 0 16).targetType
          = TargetType.implicit
      ∧ (mkSelect ⟨"SELECT * FROM t.".data, "t".data, []⟩ 0 16).targetName = "t".data)
    ∧ (headSearch "SELECT * FROM t.".data
        = some ([], "SELECT * FROM t".data, ".".data)
      ∧ build_replacement_stmt "SELECT * FROM t.".data "t".data ["x".data]
          TargetType.implicit "t".data
          = subFirstStar "SELECT * FROM t".data (joinSpace (sortStrings ["x".data]))
            ++ (dropTrailingDot ".".data ++ ['.'])) := by
  constructor
  · have h := c5_implicit_handling.1 ⟨"SELECT * FROM t.".data, "t".data, []⟩ 0 16
      (by decide) (by decide)
    exact ⟨by decide, by decide, h.1, h.2⟩
  · have h := c5_implicit_handling.2 "SELECT * FROM t.".data "t".data ["x".data]
      "t".data [] "SELECT * FROM t".data ".".data (by decide) (by decide) (by decide)
      (by decide) (by decide)
    exact ⟨by decide, h⟩

/-- C7: every suggested field list is sorted ascending in the lexicographic
string order, duplicate-free, and lower-case; the suggested statement is the
synthesized statement over exactly that list, in which the wildcard of the
head is replaced by these field names joined by single spaces in that
order. -/
theorem c7_sort_contract (flat : List Char) (aliases : AliasDict) (sel : Sel)
    (fs : List (List Char))
    (h : (analyzeSel flat aliases sel).suggested_fields = some fs) :
    List.Sorted StrLe fs ∧ fs.Nodup
    ∧ (∀ f ∈ fs, f.map lowerChar = f)
    ∧ (analyzeSel flat aliases sel).suggested_statement
        = some (build_replacement_stmt sel.text sel.table fs sel.targetType
            sel.targetName)
    ∧ sortStrings fs = fs
    ∧ (∀ (pre head rest : List Char), headSearch sel.text = some (pre, head, rest) →
        ∃ tail, build_replacement_stmt sel.text sel.table fs sel.targetType
            sel.targetName = subFirstStar head (joinSpace fs) ++ tail) := by
  cases hc : (!(sortDedup (collect_used_fields flat sel.text sel.table sel.targetType
      sel.targetName aliases).1).isEmpty
      && !(collect_used_fields flat sel.text sel.table sel.targetType
          sel.targetName aliases).2) with
  | false =>
      have hnone : (analyzeSel flat aliases sel).suggested_fields = none := by
        simp [analyzeSel, hc]
      rw [hnone] at h
      exact absurd h (by simp)
  | true =>
      have hsome : (analyzeSel flat aliases sel).suggested_fields
          = some (sortDedup (collect_used_fields flat sel.text sel.table
              sel.targetType sel.targetName aliases).1) := by
        simp [analyzeSel, hc]
      rw [hsome] at h
      simp only [Option.some.injEq] at h
      subst h
      have hce : (sortDedup (collect_used_fields flat sel.text sel.table
          sel.targetType sel.targetName aliases).1).isEmpty = false := by
        simp only [Bool.and_eq_true, Bool.not_eq_true'] at hc
        exact hc.1
      have hsorteq : sortStrings (sortDedup (collect_used_fields flat sel.text
          sel.table sel.targetType sel.targetName aliases).1)
          = sortDedup (collect_used_fields flat sel.text sel.table sel.targetType
              sel.targetName aliases).1 :=
        (sortDedup_sorted _).insertionSort_eq
      refine ⟨sortDedup_sorted _, sortDedup_nodup _, ?_, ?_, hsorteq, ?_⟩
      · intro f hfmem
        have hmem2 : f ∈ (collect_used_fields flat sel.text sel.table sel.targetType
            sel.targetName aliases).1.dedup := ((sortDedup_perm _).mem_iff).mp hfmem
        exact collect_fields_lower (List.mem_dedup.mp hmem2)
      · simp [analyzeSel, hc]
      · intro pre head rest hh
        unfold build_replacement_stmt
        rw [hh]
        dsimp only
        have hexp : (if (sortDedup (collect_used_fields flat sel.text sel.table
            sel.targetType sel.targetName aliases).1).isEmpty then (['*'] : List Char)
            else joinSpace (sortStrings (sortDedup (collect_used_fields flat sel.text
              sel.table sel.targetType sel.targetName aliases).1)))
            = joinSpace (sortDedup (collect_used_fields flat sel.text sel.table
                sel.targetType sel.targetName aliases).1) := by
          rw [hce, hsorteq]
          simp
        rw [hexp]
        cases hic : intoCorresponding sel.targetType sel.targetName with
        | none => exact ⟨_, rfl⟩
        | some intoCf =>
            refine ⟨if (stripChars (removeIntoWa (removeIntoTable
                  (dropTrailingDot rest)))).isEmpty then
                "\n  ".data ++ (intoCf ++ ['.'])
              else stripChars (removeIntoWa (removeIntoTable (dropTrailingDot rest)))
                ++ ("\n  ".data ++ (intoCf ++ ['.'])), ?_⟩
            by_cases hpe : (stripChars (removeIntoWa (removeIntoTable
                (dropTrailingDot rest)))).isEmpty = true
            · simp only [if_pos hpe]
            · simp only [if_neg hpe]

theorem c7_sort_contract_witness :
    (analyzeSel c1flat ([] : AliasDict) c1sel).suggested_fields
      = some ["carrid".data, "connid".data]
    ∧ List.Sorted StrLe ["carrid".data, "connid".data] :=
  ⟨by decide,
   (c7_sort_contract c1flat ([] : AliasDict) c1sel
      ["carrid".data, "connid".data] (by decide)).1⟩

/-- C1 (amended): on the single-unit batch of the scenario, Analyze returns
exactly one finding with table spfli, work-area target wa_spfli, used fields
carrid and connid, ambiguous false, and the suggested statement
SELECT carrid connid FROM spfli, newline, two spaces,
INTO CORRESPONDING FIELDS OF wa_spfli followed by the period: the synthesizer
of app.py places the normalized receiving clause on a fresh indented line
rather than after a single space. -/
theorem c1_scenario_analyze :
    analyze_array [c1unit]
      = [⟨c1unit,
          [⟨"spfli".data, TargetType.wa, "wa_spfli".data, 0, 34,
            ["carrid".data, "connid".data], false,
            some ["carrid".data, "connid".data],
            some "SELECT carrid connid FROM spfli\n  INTO CORRESPONDING FIELDS OF wa_spfli.".data⟩]⟩] := by
  decide

theorem c1_counterexample :
    (analyze_array [c1unit]).map (fun r => r.selects.map SelResult.suggested_statement)
      = [[some "SELECT carrid connid FROM spfli\n  INTO CORRESPONDING FIELDS OF wa_spfli.".data]]
    ∧ ("SELECT carrid connid FROM spfli\n  INTO CORRESPONDING FIELDS OF wa_spfli.".data : List Char)
      ≠ "SELECT carrid connid FROM spfli INTO CORRESPONDING FIELDS OF wa_spfli.".data :=
  ⟨by decide, by decide⟩

end SelectRule
